import Mathlib

/-!
# Verification of `stringpea`: confusable normalization and Levenshtein distance

This file gives a shallow embedding of the two algorithmic components of the
`stringpea` repository:

* `src/levenshtein-distance.ts` — an optimized Levenshtein distance over the
  UTF-16 code units of two JavaScript strings (rolling 1-D vector, common
  prefix/suffix elision, 4-wide unrolled main loop), and
* `src/confusables.ts` — a confusables normalization map decoded from compact
  `(canonical, confusables)` pairs, applied code-point-wise to a string,

together with a classical reference definition of edit distance and proofs
relating the embedded implementation to it.

JavaScript strings are modelled as `List Nat`:

* for the distance engine, the list holds the values `charCodeAt` yields,
  i.e. the UTF-16 code units of the string;
* for the normalizer, which iterates with `[...str]` / `for (const c of s)`,
  the list holds Unicode code points; `utf16Encode` converts the code-point
  view into the code-unit view a JS string presents to `charCodeAt`.
-/

namespace StringPea

/-- Substitution cost of one character for another: `0` on a match, else `1`. -/
def levCost (x y : Nat) : Nat := if x = y then 0 else 1

/-- Classical reference Levenshtein distance between two sequences: the standard
dynamic-programming recurrence, taking the minimum of substitute / delete /
insert at each step.  This is the specification the optimized implementation is
checked against. -/
def lev : List Nat → List Nat → Nat
  | [], ys => ys.length
  | x :: xs, [] => (x :: xs).length
  | x :: xs, y :: ys =>
      min (lev xs ys + levCost x y) (min (lev xs (y :: ys) + 1) (lev (x :: xs) ys + 1))
  termination_by xs ys => (xs.length, ys.length)

/-- Embedding of the source's five-argument `min` helper:
`d0 < d1 || d2 < d1 ? (d0 > d2 ? d2 + 1 : d0 + 1) : bx === ay ? d1 : d1 + 1`. -/
def jsMin (d0 d1 d2 bx ay : Nat) : Nat :=
  if d0 < d1 ∨ d2 < d1 then (if d0 > d2 then d2 + 1 else d0 + 1)
  else if bx = ay then d1 else d1 + 1

inductive Aligns : List Nat → List Nat → Nat → Prop
  | nil : Aligns [] [] 0
  | del {xs ys n} (x : Nat) : Aligns xs ys n → Aligns (x :: xs) ys (n + 1)
  | ins {xs ys n} (y : Nat) : Aligns xs ys n → Aligns xs (y :: ys) (n + 1)
  | sub {xs ys n} (x y : Nat) : Aligns xs ys n → Aligns (x :: xs) (y :: ys) (n + levCost x y)

/-- Suffix elision loop:
`while (la > 0 && a.charCodeAt(la - 1) === b.charCodeAt(lb - 1)) { la--; lb--; }`.
Structural recursion on `la`.  The `0 < lb` conjunct mirrors JavaScript:
`charCodeAt(-1)` is `NaN`, which compares unequal to everything. -/
def suffixStrip (a b : List Nat) : Nat → Nat → Nat × Nat
  | 0, lb => (0, lb)
  | la + 1, lb =>
      if 0 < lb ∧ a.getD la 0 = b.getD (lb - 1) 0 then suffixStrip a b la (lb - 1)
      else (la + 1, lb)

/-- Prefix elision loop:
`while (offset < la && a.charCodeAt(offset) === b.charCodeAt(offset)) offset++;`.
`fuel` is `la - offset`, so the loop guard `offset < la` is exactly `0 < fuel`. -/
def prefixGo (a b : List Nat) : Nat → Nat → Nat
  | 0, offset => offset
  | fuel + 1, offset =>
      if a.getD offset 0 = b.getD offset 0 then prefixGo a b fuel (offset + 1)
      else offset

/-- The rolling vector as initialized before the main loop: for each `y < la`
push the boundary distance `y + 1` and the character code `a[offset + y]`. -/
def initVector (a : List Nat) (offset la : Nat) : List Nat :=
  (List.range la).flatMap (fun y => [y + 1, a.getD (offset + y) 0])

/-- Inner loop of the 4-wide unrolled main loop.  `len` is the loop bound
`vector.length - 1`; the last component of the result counts iterations that
were skipped because `vector[y]` or `vector[y+1]` was undefined (the
`continue` guard in the source). -/
def inner4 (bx0 bx1 bx2 bx3 len : Nat) :
    Nat → Nat → List Nat → Nat → Nat → Nat → Nat → Nat → Nat → List Nat × Nat × Nat
  | 0, _, v, _, _, _, _, dd, sk => (v, dd, sk)
  | fuel + 1, y, v, d0, d1, d2, d3, dd, sk =>
      if y < len then
        match v[y]?, v[y + 1]? with
        | some dy, some ay =>
            let e0 := jsMin dy d0 d1 bx0 ay
            let e1 := jsMin e0 d1 d2 bx1 ay
            let e2 := jsMin e1 d2 d3 bx2 ay
            let ee := jsMin e2 d3 dd bx3 ay
            inner4 bx0 bx1 bx2 bx3 len fuel (y + 2) (v.set y ee) dy e0 e1 e2 ee sk
        | _, _ => inner4 bx0 bx1 bx2 bx3 len fuel (y + 2) v d0 d1 d2 d3 dd (sk + 1)
      else (v, dd, sk)

/-- Inner loop of the cleanup pass (single column per outer iteration). -/
def inner1 (bx0 len : Nat) :
    Nat → Nat → List Nat → Nat → Nat → Nat → List Nat × Nat × Nat
  | 0, _, v, _, dd, sk => (v, dd, sk)
  | fuel + 1, y, v, d0, dd, sk =>
      if y < len then
        match v[y]?, v[y + 1]? with
        | some dy, some ay =>
            let ee := jsMin dy d0 dd bx0 ay
            inner1 bx0 len fuel (y + 2) (v.set y ee) dy ee sk
        | _, _ => inner1 bx0 len fuel (y + 2) v d0 dd (sk + 1)
      else (v, dd, sk)

/-- Main loop (`for (; x < lb - 3;)`): processes four columns of `b` per
iteration.  Result is `(x, vector, dd, skips)`. -/
def mainLoop (b : List Nat) (offset lb len : Nat) :
    Nat → Nat → List Nat → Nat → Nat → Nat × List Nat × Nat × Nat
  | 0, x, v, dd, sk => (x, v, dd, sk)
  | fuel + 1, x, v, dd, sk =>
      if x < lb - 3 then
        let bx0 := b.getD (offset + x) 0
        let bx1 := b.getD (offset + x + 1) 0
        let bx2 := b.getD (offset + x + 2) 0
        let bx3 := b.getD (offset + x + 3) 0
        let r := inner4 bx0 bx1 bx2 bx3 len len 0 v x (x + 1) (x + 2) (x + 3) (x + 4) sk
        mainLoop b offset lb len fuel (x + 4) r.1 r.2.1 r.2.2
      else (x, v, dd, sk)

/-- Cleanup loop (`for (; x < lb;)`): one column of `b` per iteration. -/
def cleanupLoop (b : List Nat) (offset lb len : Nat) :
    Nat → Nat → List Nat → Nat → Nat → List Nat × Nat × Nat
  | 0, _, v, dd, sk => (v, dd, sk)
  | fuel + 1, x, v, dd, sk =>
      if x < lb then
        let bx0 := b.getD (offset + x) 0
        let r := inner1 bx0 len len 0 v x (x + 1) sk
        cleanupLoop b offset lb len fuel (x + 1) r.1 r.2.1 r.2.2
      else (v, dd, sk)

/-- `if (a.length > b.length) { swap }` — the shorter operand. -/
def shorterOf (a0 b0 : List Nat) : List Nat := if b0.length < a0.length then b0 else a0

/-- `if (a.length > b.length) { swap }` — the longer operand. -/
def longerOf (a0 b0 : List Nat) : List Nat := if b0.length < a0.length then a0 else b0

/-- The effective lengths and offset after the swap, common-suffix elision and
common-prefix elision: `(la, lb, offset)` as they stand at the degenerate-case
test `if (la === 0 || lb < 3) return lb;` of the source. -/
def elide (a0 b0 : List Nat) : Nat × Nat × Nat :=
  let a := shorterOf a0 b0
  let b := longerOf a0 b0
  let p := suffixStrip a b a.length b.length
  let offset := prefixGo a b p.1 0
  (p.1 - offset, p.2 - offset, offset)

/-- The full `levenshteinDistance` of the source over a sequence of character
codes, instrumented with a counter of skipped inner-loop iterations (second
component); the counter does not influence the distance (first component). -/
def levenshteinCore (a0 b0 : List Nat) : Nat × Nat :=
  if a0 = b0 then (0, 0)
  else
    let a := shorterOf a0 b0
    let b := longerOf a0 b0
    let e := elide a0 b0
    let la := e.1
    let lb := e.2.1
    let offset := e.2.2
    if la = 0 ∨ lb < 3 then (lb, 0)
    else
      let v0 := initVector a offset la
      let len := v0.length - 1
      let r1 := mainLoop b offset lb len lb 0 v0 0 0
      let r2 := cleanupLoop b offset lb len lb r1.1 r1.2.1 r1.2.2.1 r1.2.2.2
      (r2.2.1, r2.2.2)

/-- `levenshteinDistance(a, b)` over the sequences of character codes the
source reads with `charCodeAt`. -/
def levenshteinDistance (a0 b0 : List Nat) : Nat := (levenshteinCore a0 b0).1

/-- Number of inner-loop iterations skipped by the
`if (vectorY === undefined || vectorYPlus1 === undefined) continue;` guards. -/
def levenshteinSkips (a0 b0 : List Nat) : Nat := (levenshteinCore a0 b0).2

/-! ## The DP matrix and a pair-level view of the rolling vector

`Mdp a b offset i j` is the edit distance between the first `i` characters of
the post-elision region of `a` and the first `j` characters of the
post-elision region of `b` (reversal makes the head-recursive `lev` grow those
prefixes at the right end).  The rolling vector of the source is the column
`j` of this matrix interleaved with the character codes of `a`. -/

/-- Entry `(i, j)` of the conceptual DP matrix over the post-elision regions. -/
def Mdp (a b : List Nat) (offset i j : Nat) : Nat :=
  lev (((a.drop offset).take i).reverse) (((b.drop offset).take j).reverse)

/-- Flatten a list of `(distance, charCode)` pairs into the alternating
`[distance, charCode, …]` layout of the source's vector. -/
def encodePairs (w : List (Nat × Nat)) : List Nat := w.flatMap (fun p => [p.1, p.2])

/-- Rows `r, …, r + n - 1` of column `j` of the DP matrix, paired with the
corresponding character codes of `a`. -/
def pairsSeg (a b : List Nat) (offset j r n : Nat) : List (Nat × Nat) :=
  (List.range' r n).map (fun t => (Mdp a b offset (t + 1) j, a.getD (offset + t) 0))

/-- Pure structural version of the cleanup pass's inner loop. -/
def innerFold1 (bx : Nat) : List (Nat × Nat) → Nat → Nat → List (Nat × Nat) × Nat
  | [], _, dd => ([], dd)
  | (dy, ay) :: rest, d0, dd =>
      let ee := jsMin dy d0 dd bx ay
      let r := innerFold1 bx rest dy ee
      ((ee, ay) :: r.1, r.2)

/-- Pure structural version of the 4-wide unrolled inner loop. -/
def innerFold4 (bx0 bx1 bx2 bx3 : Nat) :
    List (Nat × Nat) → Nat → Nat → Nat → Nat → Nat → List (Nat × Nat) × Nat
  | [], _, _, _, _, dd => ([], dd)
  | (dy, ay) :: rest, d0, d1, d2, d3, dd =>
      let e0 := jsMin dy d0 d1 bx0 ay
      let e1 := jsMin e0 d1 d2 bx1 ay
      let e2 := jsMin e1 d2 d3 bx2 ay
      let ee := jsMin e2 d3 dd bx3 ay
      let r := innerFold4 bx0 bx1 bx2 bx3 rest dy e0 e1 e2 ee
      ((ee, ay) :: r.1, r.2)

/-- UTF-16 encoding of a sequence of Unicode code points: the sequence of
code units `charCodeAt` yields on the JS string holding those code points
(code points beyond U+FFFF become a surrogate pair). -/
def utf16Encode (s : List Nat) : List Nat :=
  s.flatMap (fun c =>
    if c < 65536 then [c]
    else [55296 + (c - 65536) / 1024, 56320 + (c - 65536) % 1024])

/-- `levenshteinDistance(a, b)` on the JS strings holding the code points
`a` and `b`: the engine reads the strings through `charCodeAt`, i.e. as
their UTF-16 code-unit sequences. -/
def levenshteinDistanceCP (a b : List Nat) : Nat :=
  levenshteinDistance (utf16Encode a) (utf16Encode b)

/-- JS `Map.set` on a string-keyed map modelled as an association list:
update the existing entry in place, else append. -/
def mapSet : List (List Nat × List Nat) → List Nat → List Nat → List (List Nat × List Nat)
  | [], k, v => [(k, v)]
  | kv :: rest, k, v => if kv.1 = k then (k, v) :: rest else kv :: mapSet rest k v

/-- JS `Map.get`. -/
def mapGet (m : List (List Nat × List Nat)) (k : List Nat) : Option (List Nat) :=
  (m.find? (fun kv => kv.1 == k)).map (fun kv => kv.2)

/-- JS `Map.has`. -/
def mapHas (m : List (List Nat × List Nat)) (k : List Nat) : Bool :=
  (mapGet m k).isSome

/-- One iteration of `decodeCompact`'s outer loop over a
`[canonical, confusables]` pair: map each confusable code point to the
canonical string, then map the canonical string to itself if absent. -/
def decodeStep (m : List (List Nat × List Nat)) (p : List Nat × List Nat) :
    List (List Nat × List Nat) :=
  let m1 := p.2.foldl (fun m ch => mapSet m [ch] p.1) m
  if mapHas m1 p.1 then m1 else mapSet m1 p.1 p.1

/-- Embedding of `decodeCompact`: fold the pairs into a map, starting empty.
Keys are the strings JS uses (a confusable is a one-code-point string; the
reflexive entry's key is the whole canonical string). -/
def decodeCompact (compact : List (List Nat × List Nat)) : List (List Nat × List Nat) :=
  compact.foldl decodeStep []

/-- `[...str].map((char) => map.get(char) ?? char).join("")` against a given
map: per code point, the mapped canonical string or the code point itself. -/
def normWithMap (m : List (List Nat × List Nat)) (s : List Nat) : List Nat :=
  (s.map (fun c => (mapGet m [c]).getD [c])).flatten

/-- Embedding of `normalizeConfusables`, parameterized by the compact
confusables data the source imports from `confusables.json`. -/
def normalizeConfusables (compact : List (List Nat × List Nat)) (s : List Nat) : List Nat :=
  normWithMap (decodeCompact compact) s

/-- Embedding of `getConfusableDistance` (`src/index.ts`): normalize both
code-point sequences, then take the Levenshtein distance of the resulting
JS strings (i.e. of their UTF-16 unit sequences). -/
def getConfusableDistance (compact : List (List Nat × List Nat)) (a b : List Nat) : Nat :=
  levenshteinDistance (utf16Encode (normalizeConfusables compact a))
    (utf16Encode (normalizeConfusables compact b))

/-- The fragment of `confusables.json` pinned by the repository's test suite:
`"0" → "O"`, `"1" → "l"`, `"m" → "rn"` (the tests assert
`normalizeConfusables("adm1n") = "adrnln"` and similar).  The full JSON data
file is generated offline and is not among the sources. -/
def confusablesTestData : List (List Nat × List Nat) :=
  [([79], [48]), ([108], [49]), ([114, 110], [109])]

/-! ### Map lemmas -/

@[simp] theorem lev_nil_left (ys : List Nat) : lev [] ys = ys.length := by
  simp [lev]

@[simp] theorem lev_nil_right (xs : List Nat) : lev xs [] = xs.length := by
  cases xs <;> simp [lev]

theorem lev_cons_cons (x y : Nat) (xs ys : List Nat) :
    lev (x :: xs) (y :: ys) =
      min (lev xs ys + levCost x y) (min (lev xs (y :: ys) + 1) (lev (x :: xs) ys + 1)) := by
  simp [lev]

/-- `levCost` is at most `1`. -/
theorem levCost_le_one (x y : Nat) : levCost x y ≤ 1 := by
  unfold levCost; split <;> omega

@[simp] theorem levCost_self (x : Nat) : levCost x x = 0 := by simp [levCost]

theorem levCost_comm (x y : Nat) : levCost x y = levCost y x := by
  unfold levCost
  by_cases h : x = y <;> simp [h, Ne.symm, eq_comm]

/-- The branchy `min` helper computes exactly the textbook three-way DP cell:
diagonal value on a character match is still clamped by the two `+1` neighbours,
and a mismatch takes `1 +` the three-way minimum. -/
theorem jsMin_eq (d0 d1 d2 bx ay : Nat) :
    jsMin d0 d1 d2 bx ay =
      if bx = ay then min d1 (min (d0 + 1) (d2 + 1))
      else min d1 (min d0 d2) + 1 := by
  unfold jsMin
  split_ifs <;> omega

/-! ## Edit scripts

`Aligns xs ys n` holds when `xs` can be transformed into `ys` by an edit
script of total cost `n` (deletions and insertions cost `1`, substitutions
cost `levCost`, so matching characters may be kept for free).  `lev` is shown
to be the least such cost, which is the "minimum number of single-character
insertions, deletions, or substitutions" of the specification. -/

theorem aligns_nil_left (ys : List Nat) : Aligns [] ys ys.length := by
  induction ys with
  | nil => exact Aligns.nil
  | cons y ys ih => exact Aligns.ins y ih

theorem aligns_nil_right (xs : List Nat) : Aligns xs [] xs.length := by
  induction xs with
  | nil => exact Aligns.nil
  | cons x xs ih => exact Aligns.del x ih

/-- There is an edit script realizing the reference distance. -/
theorem aligns_lev : ∀ xs ys : List Nat, Aligns xs ys (lev xs ys)
  | [], ys => by simpa using aligns_nil_left ys
  | x :: xs, [] => by simpa using aligns_nil_right (x :: xs)
  | x :: xs, y :: ys => by
      rw [lev_cons_cons]
      have h1 := aligns_lev xs ys
      have h2 := aligns_lev xs (y :: ys)
      have h3 := aligns_lev (x :: xs) ys
      rcases Nat.lt_trichotomy (lev xs ys + levCost x y)
          (min (lev xs (y :: ys) + 1) (lev (x :: xs) ys + 1)) with h | h | h
      · rw [min_eq_left h.le]
        exact Aligns.sub x y h1
      · rw [min_eq_left h.le]
        exact Aligns.sub x y h1
      · rw [min_eq_right h.le]
        rcases Nat.le_total (lev xs (y :: ys) + 1) (lev (x :: xs) ys + 1) with h' | h'
        · rw [min_eq_left h']
          exact Aligns.del x h2
        · rw [min_eq_right h']
          exact Aligns.ins y h3
  termination_by xs ys => (xs.length, ys.length)

/-- Deleting the head raises the distance by at most one. -/
theorem lev_del_le (x : Nat) (xs ys : List Nat) : lev (x :: xs) ys ≤ lev xs ys + 1 := by
  cases ys with
  | nil => simp
  | cons y ys =>
      rw [lev_cons_cons]
      exact le_trans (min_le_right _ _) (le_trans (min_le_left _ _) le_rfl)

/-- Inserting a head raises the distance by at most one. -/
theorem lev_ins_le (y : Nat) (xs ys : List Nat) : lev xs (y :: ys) ≤ lev xs ys + 1 := by
  cases xs with
  | nil => simp
  | cons x xs =>
      rw [lev_cons_cons]
      exact le_trans (min_le_right _ _) (min_le_right _ _)

/-- The reference distance is a lower bound on the cost of any edit script. -/
theorem lev_le_of_aligns {xs ys : List Nat} {n : Nat} (h : Aligns xs ys n) :
    lev xs ys ≤ n := by
  induction h with
  | nil => simp
  | del x _ ih => exact le_trans (lev_del_le _ _ _) (by omega)
  | ins y _ ih => exact le_trans (lev_ins_le _ _ _) (by omega)
  | sub x y _ ih =>
      rw [lev_cons_cons]
      exact le_trans (min_le_left _ _) (by omega)

/-- `lev xs ys` is the least cost of an edit script from `xs` to `ys`. -/
theorem lev_isLeast (xs ys : List Nat) :
    IsLeast {n | Aligns xs ys n} (lev xs ys) :=
  ⟨aligns_lev xs ys, fun _ h => lev_le_of_aligns h⟩

theorem aligns_swap {xs ys : List Nat} {n : Nat} (h : Aligns xs ys n) :
    Aligns ys xs n := by
  induction h with
  | nil => exact Aligns.nil
  | del x _ ih => exact Aligns.ins x ih
  | ins y _ ih => exact Aligns.del y ih
  | sub x y _ ih => rw [levCost_comm]; exact Aligns.sub y x ih

/-- Symmetry of the reference distance. -/
theorem lev_comm (xs ys : List Nat) : lev xs ys = lev ys xs :=
  le_antisymm (lev_le_of_aligns (aligns_swap (aligns_lev ys xs)))
    (lev_le_of_aligns (aligns_swap (aligns_lev xs ys)))

theorem aligns_append_del {xs ys : List Nat} {n : Nat} (x : Nat) (h : Aligns xs ys n) :
    Aligns (xs ++ [x]) ys (n + 1) := by
  induction h with
  | nil => exact Aligns.del x Aligns.nil
  | del z h ih => exact Aligns.del z ih
  | ins z h ih => exact Aligns.ins z ih
  | sub z w h ih =>
      have := Aligns.sub z w ih
      simpa [Nat.add_right_comm] using this

theorem aligns_append_ins {xs ys : List Nat} {n : Nat} (y : Nat) (h : Aligns xs ys n) :
    Aligns xs (ys ++ [y]) (n + 1) := by
  induction h with
  | nil => exact Aligns.ins y Aligns.nil
  | del z h ih => exact Aligns.del z ih
  | ins z h ih => exact Aligns.ins z ih
  | sub z w h ih =>
      have := Aligns.sub z w ih
      simpa [Nat.add_right_comm] using this

theorem aligns_append_sub {xs ys : List Nat} {n : Nat} (x y : Nat) (h : Aligns xs ys n) :
    Aligns (xs ++ [x]) (ys ++ [y]) (n + levCost x y) := by
  induction h with
  | nil => exact Aligns.sub x y Aligns.nil
  | del z h ih => have := Aligns.del z ih; simpa [Nat.add_right_comm] using this
  | ins z h ih => have := Aligns.ins z ih; simpa [Nat.add_right_comm] using this
  | sub z w h ih =>
      have := Aligns.sub z w ih
      simpa [Nat.add_right_comm] using this

/-- Edit scripts can be replayed on the reversed sequences at the same cost. -/
theorem aligns_reverse {xs ys : List Nat} {n : Nat} (h : Aligns xs ys n) :
    Aligns xs.reverse ys.reverse n := by
  induction h with
  | nil => exact Aligns.nil
  | del x h ih => simpa using aligns_append_del x ih
  | ins y h ih => simpa using aligns_append_ins y ih
  | sub x y h ih => simpa using aligns_append_sub x y ih

/-- Edit distance is invariant under reversing both sequences. -/
theorem lev_reverse (xs ys : List Nat) : lev xs.reverse ys.reverse = lev xs ys := by
  refine le_antisymm (lev_le_of_aligns (aligns_reverse (aligns_lev xs ys))) ?_
  have := lev_le_of_aligns (aligns_reverse (aligns_lev xs.reverse ys.reverse))
  simpa using this

/-! ## Elision and bound lemmas for the reference distance -/

/-- Undoing an insertion at the head costs at most one. -/
theorem lev_le_ins (y : Nat) : ∀ xs ys : List Nat, lev xs ys ≤ lev xs (y :: ys) + 1 := by
  intro xs
  induction xs with
  | nil => intro ys; simp; omega
  | cons x xs ih =>
      intro ys
      rw [lev_cons_cons x y xs ys]
      have h1 : lev (x :: xs) ys ≤ lev xs ys + 1 := lev_del_le x xs ys
      have h2 : lev xs ys ≤ lev xs (y :: ys) + 1 := ih ys
      have h3 : levCost x y ≤ 1 := levCost_le_one x y
      omega

/-- Undoing a deletion at the head costs at most one. -/
theorem lev_le_del (x : Nat) (xs ys : List Nat) : lev xs ys ≤ lev (x :: xs) ys + 1 := by
  rw [lev_comm xs ys, lev_comm (x :: xs) ys]
  exact lev_le_ins x ys xs

/-- A matching head character can be stripped without changing the distance. -/
theorem lev_cons_same (c : Nat) (xs ys : List Nat) : lev (c :: xs) (c :: ys) = lev xs ys := by
  rw [lev_cons_cons]
  have h1 : lev xs ys ≤ lev xs (c :: ys) + 1 := lev_le_ins c xs ys
  have h2 : lev xs ys ≤ lev (c :: xs) ys + 1 := lev_le_del c xs ys
  simp [levCost_self]
  omega

/-- A common prefix can be stripped without changing the distance. -/
theorem lev_common_left (p xs ys : List Nat) : lev (p ++ xs) (p ++ ys) = lev xs ys := by
  induction p with
  | nil => simp
  | cons c p ih => simpa [lev_cons_same] using ih

/-- A common suffix can be stripped without changing the distance. -/
theorem lev_common_right (s xs ys : List Nat) : lev (xs ++ s) (ys ++ s) = lev xs ys := by
  have h := lev_common_left s.reverse xs.reverse ys.reverse
  rw [lev_reverse] at h
  calc lev (xs ++ s) (ys ++ s)
      = lev (xs ++ s).reverse (ys ++ s).reverse := (lev_reverse _ _).symm
    _ = lev (s.reverse ++ xs.reverse) (s.reverse ++ ys.reverse) := by
        simp [List.reverse_append]
    _ = lev xs ys := h

@[simp] theorem lev_self (xs : List Nat) : lev xs xs = 0 := by
  simpa using lev_common_right xs [] []

/-- Any edit script's cost bounds the length change in both directions. -/
theorem aligns_length_le {xs ys : List Nat} {n : Nat} (h : Aligns xs ys n) :
    xs.length ≤ ys.length + n ∧ ys.length ≤ xs.length + n := by
  induction h with
  | nil => simp
  | del x h ih => simp at *; omega
  | ins y h ih => simp at *; omega
  | sub x y h ih => simp at *; omega

/-- Lower bound: the distance dominates the length difference. -/
theorem lev_length_lower (xs ys : List Nat) :
    xs.length - ys.length ≤ lev xs ys ∧ ys.length - xs.length ≤ lev xs ys := by
  have := aligns_length_le (aligns_lev xs ys)
  omega

/-- Upper bound: the distance never exceeds the longer length. -/
theorem lev_le_max : ∀ xs ys : List Nat, lev xs ys ≤ max xs.length ys.length
  | [], ys => by simp
  | x :: xs, [] => by simp
  | x :: xs, y :: ys => by
      rw [lev_cons_cons]
      have h1 := lev_le_max xs ys
      have h2 := levCost_le_one x y
      have : lev xs ys + levCost x y ≤ max (x :: xs).length (y :: ys).length := by
        simp only [List.length_cons]
        omega
      exact le_trans (min_le_left _ _) this
  termination_by xs ys => (xs.length, ys.length)

/-- After full prefix/suffix elision with first and last characters mismatching,
a pair with longer length below 3 has distance exactly the longer length. -/
theorem lev_degenerate (A B : List Nat) (hle : A.length ≤ B.length)
    (hA : 0 < A.length) (hB : B.length < 3)
    (hfst : A.getD 0 0 ≠ B.getD 0 0)
    (hlst : A.getD (A.length - 1) 0 ≠ B.getD (B.length - 1) 0) :
    lev A B = B.length := by
  rcases B with _ | ⟨q1, _ | ⟨q2, _ | ⟨q3, B⟩⟩⟩
  · exfalso; rw [List.length_nil] at hle; omega
  · rcases A with _ | ⟨p1, _ | ⟨p2, A⟩⟩
    · simp at hA
    · simp at hfst
      simp [lev_cons_cons, levCost, hfst]
    · simp at hle
  · rcases A with _ | ⟨p1, _ | ⟨p2, _ | ⟨p3, A⟩⟩⟩
    · simp at hA
    · simp at hfst hlst
      have h1 : lev [p1] [q2] = 1 := by simp [lev_cons_cons, levCost, hlst]
      rw [lev_cons_cons]
      simp [h1, lev_cons_cons, levCost, hfst]
    · simp at hfst hlst
      have h1 : lev [p2] [q2] = 1 := by simp [lev_cons_cons, levCost, hlst]
      have h2 : 1 ≤ lev [p2] [q1, q2] := by
        have := lev_length_lower [p2] [q1, q2]
        simp at this
        omega
      have h3 : 1 ≤ lev [p1, p2] [q2] := by
        have := lev_length_lower [p1, p2] [q2]
        simp at this
        omega
      rw [lev_cons_cons]
      have hc : levCost p1 q1 = 1 := by simp [levCost, hfst]
      simp only [List.length_cons, List.length_nil]
      rw [h1, hc]
      omega
    · simp at hle
  · simp at hB; omega

/-! ## Embedding of `levenshteinDistance` (`src/levenshtein-distance.ts`)

The loops of the source are embedded as structural recursions: each loop
carries a fuel argument that only bounds the number of iterations (it is
always called with fuel at least the iteration count, and every loop still
exits through the original guard), so the definitions reduce by `decide`. -/

@[simp] theorem encodePairs_nil : encodePairs [] = [] := rfl

@[simp] theorem encodePairs_cons (p : Nat × Nat) (w : List (Nat × Nat)) :
    encodePairs (p :: w) = p.1 :: p.2 :: encodePairs w := rfl

@[simp] theorem encodePairs_append (u v : List (Nat × Nat)) :
    encodePairs (u ++ v) = encodePairs u ++ encodePairs v := by
  simp [encodePairs, List.flatMap_append]

@[simp] theorem encodePairs_length (w : List (Nat × Nat)) :
    (encodePairs w).length = 2 * w.length := by
  induction w with
  | nil => rfl
  | cons p w ih => simp [ih]; omega

@[simp] theorem pairsSeg_length (a b : List Nat) (offset j r n : Nat) :
    (pairsSeg a b offset j r n).length = n := by
  simp [pairsSeg]

theorem pairsSeg_zero (a b : List Nat) (offset j r : Nat) :
    pairsSeg a b offset j r 0 = [] := by
  simp [pairsSeg]

theorem pairsSeg_succ (a b : List Nat) (offset j r n : Nat) :
    pairsSeg a b offset j r (n + 1) =
      (Mdp a b offset (r + 1) j, a.getD (offset + r) 0) :: pairsSeg a b offset j (r + 1) n := by
  simp [pairsSeg, List.range'_succ]

/-- Row boundary of the DP matrix: distance to the empty prefix of `a`. -/
theorem Mdp_zero_left (a b : List Nat) (offset j : Nat) (hj : offset + j ≤ b.length) :
    Mdp a b offset 0 j = j := by
  simp [Mdp, List.length_take, List.length_drop]
  omega

/-- Column boundary of the DP matrix: distance to the empty prefix of `b`. -/
theorem Mdp_zero_right (a b : List Nat) (offset i : Nat) (hi : offset + i ≤ a.length) :
    Mdp a b offset i 0 = i := by
  simp [Mdp, List.length_take, List.length_drop]
  omega

theorem take_drop_reverse_succ (l : List Nat) (offset i : Nat) (h : offset + i < l.length) :
    ((l.drop offset).take (i + 1)).reverse =
      l.getD (offset + i) 0 :: ((l.drop offset).take i).reverse := by
  have hi : i < (l.drop offset).length := by
    simp [List.length_drop]; omega
  rw [List.take_succ, List.getElem?_eq_getElem hi]
  simp [List.getElem_drop, List.getD_eq_getElem?_getD, List.getElem?_eq_getElem h]

/-- The classical DP recurrence for `Mdp`. -/
theorem Mdp_succ_succ (a b : List Nat) (offset i j : Nat)
    (hi : offset + i < a.length) (hj : offset + j < b.length) :
    Mdp a b offset (i + 1) (j + 1) =
      min (Mdp a b offset i j + levCost (a.getD (offset + i) 0) (b.getD (offset + j) 0))
        (min (Mdp a b offset i (j + 1) + 1) (Mdp a b offset (i + 1) j + 1)) := by
  unfold Mdp
  rw [take_drop_reverse_succ a offset i hi, take_drop_reverse_succ b offset j hj,
    lev_cons_cons]

/-- One call of the source's `min` helper computes the next DP cell from its
left, diagonal and top neighbours. -/
theorem jsMin_cell (a b : List Nat) (offset i j : Nat)
    (hi : offset + i < a.length) (hj : offset + j < b.length) :
    jsMin (Mdp a b offset (i + 1) j) (Mdp a b offset i j) (Mdp a b offset i (j + 1))
        (b.getD (offset + j) 0) (a.getD (offset + i) 0) =
      Mdp a b offset (i + 1) (j + 1) := by
  rw [jsMin_eq, Mdp_succ_succ a b offset i j hi hj]
  by_cases h : b.getD (offset + j) 0 = a.getD (offset + i) 0
  · have hc : levCost (a.getD (offset + i) 0) (b.getD (offset + j) 0) = 0 := by
      unfold levCost; rw [if_pos h.symm]
    rw [if_pos h, hc]
    omega
  · have hc : levCost (a.getD (offset + i) 0) (b.getD (offset + j) 0) = 1 := by
      unfold levCost; rw [if_neg (fun hh => h hh.symm)]
    rw [if_neg h, hc]
    omega

/-- The cleanup inner loop advances the vector from column `x` to column
`x + 1` of the DP matrix and ends with the new bottom-row value. -/
theorem innerFold1_spec (a b : List Nat) (offset la lb : Nat)
    (hA : offset + la ≤ a.length) (hB : offset + lb ≤ b.length) :
    ∀ n r x : Nat, r + n = la → x + 1 ≤ lb →
      innerFold1 (b.getD (offset + x) 0) (pairsSeg a b offset x r n)
          (Mdp a b offset r x) (Mdp a b offset r (x + 1)) =
        (pairsSeg a b offset (x + 1) r n, Mdp a b offset la (x + 1)) := by
  intro n
  induction n with
  | zero =>
      intro r x hr hx
      have hrla : r = la := by omega
      subst hrla
      rw [pairsSeg_zero, pairsSeg_zero]
      simp [innerFold1]
  | succ n ih =>
      intro r x hr hx
      rw [pairsSeg_succ, pairsSeg_succ]
      simp only [innerFold1]
      rw [jsMin_cell a b offset r x (by omega) (by omega)]
      rw [ih (r + 1) x (by omega) hx]

/-- The 4-wide unrolled inner loop advances the vector from column `x` to
column `x + 4` of the DP matrix in one pass. -/
theorem innerFold4_spec (a b : List Nat) (offset la lb : Nat)
    (hA : offset + la ≤ a.length) (hB : offset + lb ≤ b.length) :
    ∀ n r x : Nat, r + n = la → x + 4 ≤ lb →
      innerFold4 (b.getD (offset + x) 0) (b.getD (offset + x + 1) 0)
          (b.getD (offset + x + 2) 0) (b.getD (offset + x + 3) 0)
          (pairsSeg a b offset x r n)
          (Mdp a b offset r x) (Mdp a b offset r (x + 1)) (Mdp a b offset r (x + 2))
          (Mdp a b offset r (x + 3)) (Mdp a b offset r (x + 4)) =
        (pairsSeg a b offset (x + 4) r n, Mdp a b offset la (x + 4)) := by
  intro n
  induction n with
  | zero =>
      intro r x hr hx
      have hrla : r = la := by omega
      subst hrla
      rw [pairsSeg_zero, pairsSeg_zero]
      simp [innerFold4]
  | succ n ih =>
      intro r x hr hx
      have e0 : jsMin (Mdp a b offset (r + 1) x) (Mdp a b offset r x)
          (Mdp a b offset r (x + 1)) (b.getD (offset + x) 0) (a.getD (offset + r) 0) =
          Mdp a b offset (r + 1) (x + 1) :=
        jsMin_cell a b offset r x (by omega) (by omega)
      have e1 : jsMin (Mdp a b offset (r + 1) (x + 1)) (Mdp a b offset r (x + 1))
          (Mdp a b offset r (x + 2)) (b.getD (offset + x + 1) 0) (a.getD (offset + r) 0) =
          Mdp a b offset (r + 1) (x + 2) :=
        jsMin_cell a b offset r (x + 1) (by omega) (by omega)
      have e2 : jsMin (Mdp a b offset (r + 1) (x + 2)) (Mdp a b offset r (x + 2))
          (Mdp a b offset r (x + 3)) (b.getD (offset + x + 2) 0) (a.getD (offset + r) 0) =
          Mdp a b offset (r + 1) (x + 3) :=
        jsMin_cell a b offset r (x + 2) (by omega) (by omega)
      have e3 : jsMin (Mdp a b offset (r + 1) (x + 3)) (Mdp a b offset r (x + 3))
          (Mdp a b offset r (x + 4)) (b.getD (offset + x + 3) 0) (a.getD (offset + r) 0) =
          Mdp a b offset (r + 1) (x + 4) :=
        jsMin_cell a b offset r (x + 3) (by omega) (by omega)
      rw [pairsSeg_succ, pairsSeg_succ]
      simp only [innerFold4]
      rw [e0, e1, e2, e3, ih (r + 1) x (by omega) hx]

/-- The guarded cleanup inner loop over an encoded pair vector behaves exactly
like the pure fold: no iteration ever takes the `undefined` skip branch, so the
skip counter comes back unchanged. -/
theorem inner1_encode (bx len : Nat) :
    ∀ (todo done : List (Nat × Nat)) (d0 dd sk fuel : Nat),
      todo.length ≤ fuel →
      len = 2 * (done.length + todo.length) - 1 →
      inner1 bx len fuel (2 * done.length) (encodePairs (done ++ todo)) d0 dd sk =
        (encodePairs (done ++ (innerFold1 bx todo d0 dd).1),
          (innerFold1 bx todo d0 dd).2, sk) := by
  intro todo
  induction todo with
  | nil =>
      intro done d0 dd sk fuel hf hlen
      cases fuel with
      | zero => simp [inner1, innerFold1]
      | succ f =>
          simp only [List.length_nil, Nat.add_zero] at hlen
          have hy : ¬ 2 * done.length < len := by omega
          simp [inner1, innerFold1, hy]
  | cons p rest ih =>
      obtain ⟨dy, ay⟩ := p
      intro done d0 dd sk fuel hf hlen
      cases fuel with
      | zero => simp at hf
      | succ f =>
          simp only [List.length_cons] at hf hlen
          have hy : 2 * done.length < len := by omega
          have hdl : (encodePairs done).length = 2 * done.length := encodePairs_length done
          have hv : encodePairs (done ++ (dy, ay) :: rest)
              = encodePairs done ++ dy :: ay :: encodePairs rest := by simp
          have hg1 : (encodePairs (done ++ (dy, ay) :: rest))[2 * done.length]? = some dy := by
            rw [hv, List.getElem?_append_right (by omega)]
            simp [hdl]
          have hg2 : (encodePairs (done ++ (dy, ay) :: rest))[2 * done.length + 1]? = some ay := by
            rw [hv, List.getElem?_append_right (by omega)]
            rw [hdl]
            simp
          have hset : (encodePairs (done ++ (dy, ay) :: rest)).set (2 * done.length)
                (jsMin dy d0 dd bx ay)
              = encodePairs ((done ++ [(jsMin dy d0 dd bx ay, ay)]) ++ rest) := by
            rw [hv, List.set_append_right _ _ (by omega)]
            simp [hdl]
          simp only [inner1, if_pos hy, hg1, hg2]
          rw [hset]
          have hy2 : 2 * done.length + 2 = 2 * (done ++ [(jsMin dy d0 dd bx ay, ay)]).length := by
            simp only [List.length_append, List.length_cons, List.length_nil]
            omega
          rw [hy2, ih (done ++ [(jsMin dy d0 dd bx ay, ay)]) dy (jsMin dy d0 dd bx ay) sk f
            (by omega)
            (by simp only [List.length_append, List.length_cons, List.length_nil]; omega)]
          simp [innerFold1]

/-- The guarded 4-wide inner loop over an encoded pair vector behaves exactly
like the pure fold, and never skips. -/
theorem inner4_encode (bx0 bx1 bx2 bx3 len : Nat) :
    ∀ (todo done : List (Nat × Nat)) (d0 d1 d2 d3 dd sk fuel : Nat),
      todo.length ≤ fuel →
      len = 2 * (done.length + todo.length) - 1 →
      inner4 bx0 bx1 bx2 bx3 len fuel (2 * done.length) (encodePairs (done ++ todo))
          d0 d1 d2 d3 dd sk =
        (encodePairs (done ++ (innerFold4 bx0 bx1 bx2 bx3 todo d0 d1 d2 d3 dd).1),
          (innerFold4 bx0 bx1 bx2 bx3 todo d0 d1 d2 d3 dd).2, sk) := by
  intro todo
  induction todo with
  | nil =>
      intro done d0 d1 d2 d3 dd sk fuel hf hlen
      cases fuel with
      | zero => simp [inner4, innerFold4]
      | succ f =>
          simp only [List.length_nil, Nat.add_zero] at hlen
          have hy : ¬ 2 * done.length < len := by omega
          simp [inner4, innerFold4, hy]
  | cons p rest ih =>
      obtain ⟨dy, ay⟩ := p
      intro done d0 d1 d2 d3 dd sk fuel hf hlen
      cases fuel with
      | zero => simp at hf
      | succ f =>
          simp only [List.length_cons] at hf hlen
          have hy : 2 * done.length < len := by omega
          have hdl : (encodePairs done).length = 2 * done.length := encodePairs_length done
          have hv : encodePairs (done ++ (dy, ay) :: rest)
              = encodePairs done ++ dy :: ay :: encodePairs rest := by simp
          have hg1 : (encodePairs (done ++ (dy, ay) :: rest))[2 * done.length]? = some dy := by
            rw [hv, List.getElem?_append_right (by omega)]
            simp [hdl]
          have hg2 : (encodePairs (done ++ (dy, ay) :: rest))[2 * done.length + 1]? = some ay := by
            rw [hv, List.getElem?_append_right (by omega)]
            rw [hdl]
            simp
          set ee := jsMin (jsMin (jsMin (jsMin dy d0 d1 bx0 ay) d1 d2 bx1 ay) d2 d3 bx2 ay)
            d3 dd bx3 ay with hee
          have hset : (encodePairs (done ++ (dy, ay) :: rest)).set (2 * done.length) ee
              = encodePairs ((done ++ [(ee, ay)]) ++ rest) := by
            rw [hv, List.set_append_right _ _ (by omega)]
            simp [hdl]
          simp only [inner4, if_pos hy, hg1, hg2]
          rw [hset]
          have hy2 : 2 * done.length + 2 = 2 * (done ++ [(ee, ay)]).length := by
            simp only [List.length_append, List.length_cons, List.length_nil]
            omega
          rw [hy2, ih (done ++ [(ee, ay)]) dy (jsMin dy d0 d1 bx0 ay)
            (jsMin (jsMin dy d0 d1 bx0 ay) d1 d2 bx1 ay)
            (jsMin (jsMin (jsMin dy d0 d1 bx0 ay) d1 d2 bx1 ay) d2 d3 bx2 ay) ee sk f
            (by omega)
            (by simp only [List.length_append, List.length_cons, List.length_nil]; omega)]
          simp [innerFold4]

/-- The main 4-wide loop advances the vector to some column `X` in the window
`[lb - 3, lb]`, leaving the skip counter unchanged; unless it never iterated,
`dd` holds the bottom-row entry of column `X`. -/
theorem mainLoop_spec (a b : List Nat) (offset la lb : Nat)
    (hA : offset + la ≤ a.length) (hB : offset + lb ≤ b.length) (hla : 1 ≤ la) :
    ∀ fuel x dd sk : Nat, lb ≤ x + fuel → x ≤ lb →
      ∃ X DD,
        mainLoop b offset lb (2 * la - 1) fuel x
            (encodePairs (pairsSeg a b offset x 0 la)) dd sk =
          (X, encodePairs (pairsSeg a b offset X 0 la), DD, sk) ∧
        lb - 3 ≤ X ∧ X ≤ lb ∧ (DD = Mdp a b offset la X ∨ (X = x ∧ DD = dd)) := by
  intro fuel
  induction fuel with
  | zero =>
      intro x dd sk hfu hx
      exact ⟨x, dd, by simp [mainLoop], by omega, hx, Or.inr ⟨rfl, rfl⟩⟩
  | succ fuel ih =>
      intro x dd sk hfu hx
      by_cases hgo : x < lb - 3
      · have hx4 : x + 4 ≤ lb := by omega
        have henc := inner4_encode (b.getD (offset + x) 0) (b.getD (offset + x + 1) 0)
          (b.getD (offset + x + 2) 0) (b.getD (offset + x + 3) 0) (2 * la - 1)
          (pairsSeg a b offset x 0 la) [] x (x + 1) (x + 2) (x + 3) (x + 4) sk (2 * la - 1)
          (by simp; omega) (by simp)
        simp only [List.length_nil, Nat.mul_zero, List.nil_append] at henc
        have hfold : innerFold4 (b.getD (offset + x) 0) (b.getD (offset + x + 1) 0)
            (b.getD (offset + x + 2) 0) (b.getD (offset + x + 3) 0)
            (pairsSeg a b offset x 0 la) x (x + 1) (x + 2) (x + 3) (x + 4) =
            (pairsSeg a b offset (x + 4) 0 la, Mdp a b offset la (x + 4)) := by
          have h := innerFold4_spec a b offset la lb hA hB la 0 x (by omega) hx4
          rw [Mdp_zero_left a b offset x (by omega),
            Mdp_zero_left a b offset (x + 1) (by omega),
            Mdp_zero_left a b offset (x + 2) (by omega),
            Mdp_zero_left a b offset (x + 3) (by omega),
            Mdp_zero_left a b offset (x + 4) (by omega)] at h
          exact h
        rw [hfold] at henc
        simp only [mainLoop, if_pos hgo]
        rw [henc]
        obtain ⟨X, DD, heq, h1, h2, h3⟩ := ih (x + 4) (Mdp a b offset la (x + 4)) sk
          (by omega) (by omega)
        refine ⟨X, DD, heq, h1, h2, Or.inl ?_⟩
        rcases h3 with h3 | ⟨hX, hDD⟩
        · exact h3
        · rw [hX, hDD]
      · exact ⟨x, dd, by simp [mainLoop, hgo], by omega, hx, Or.inr ⟨rfl, rfl⟩⟩

/-- The cleanup loop finishes the remaining columns: it ends on column `lb`,
leaving the skip counter unchanged; unless it never iterated, `dd` holds the
bottom-right entry of the DP matrix. -/
theorem cleanupLoop_spec (a b : List Nat) (offset la lb : Nat)
    (hA : offset + la ≤ a.length) (hB : offset + lb ≤ b.length) (hla : 1 ≤ la) :
    ∀ fuel x dd sk : Nat, lb ≤ x + fuel → x ≤ lb →
      ∃ DD,
        cleanupLoop b offset lb (2 * la - 1) fuel x
            (encodePairs (pairsSeg a b offset x 0 la)) dd sk =
          (encodePairs (pairsSeg a b offset lb 0 la), DD, sk) ∧
        (DD = Mdp a b offset la lb ∨ (x = lb ∧ DD = dd)) := by
  intro fuel
  induction fuel with
  | zero =>
      intro x dd sk hfu hx
      have hxlb : x = lb := by omega
      subst hxlb
      exact ⟨dd, by simp [cleanupLoop], Or.inr ⟨rfl, rfl⟩⟩
  | succ fuel ih =>
      intro x dd sk hfu hx
      by_cases hgo : x < lb
      · have henc := inner1_encode (b.getD (offset + x) 0) (2 * la - 1)
          (pairsSeg a b offset x 0 la) [] x (x + 1) sk (2 * la - 1)
          (by simp; omega) (by simp)
        simp only [List.length_nil, Nat.mul_zero, List.nil_append] at henc
        have hfold : innerFold1 (b.getD (offset + x) 0)
            (pairsSeg a b offset x 0 la) x (x + 1) =
            (pairsSeg a b offset (x + 1) 0 la, Mdp a b offset la (x + 1)) := by
          have h := innerFold1_spec a b offset la lb hA hB la 0 x (by omega) (by omega)
          rw [Mdp_zero_left a b offset x (by omega),
            Mdp_zero_left a b offset (x + 1) (by omega)] at h
          exact h
        rw [hfold] at henc
        simp only [cleanupLoop, if_pos hgo]
        rw [henc]
        obtain ⟨DD, heq, h3⟩ := ih (x + 1) (Mdp a b offset la (x + 1)) sk (by omega) (by omega)
        refine ⟨DD, heq, Or.inl ?_⟩
        rcases h3 with h3 | ⟨hX, hDD⟩
        · exact h3
        · rw [hDD, hX]
      · have hxlb : x = lb := by omega
        subst hxlb
        exact ⟨dd, by simp [cleanupLoop, hgo], Or.inr ⟨rfl, rfl⟩⟩

/-! ## Analysis of the elision loops -/

/-- Invariant analysis of the suffix-elision loop: it strips some number `k`
of matching trailing characters from both effective lengths, preserves the
"equal dropped tails" invariant, and stops only when no further match is
possible. -/
theorem suffixStrip_spec (a b : List Nat) :
    ∀ la lb : Nat, la ≤ a.length → lb ≤ b.length → la ≤ lb →
      a.drop la = b.drop lb →
      ∃ k ≤ la,
        suffixStrip a b la lb = (la - k, lb - k) ∧
        a.drop (la - k) = b.drop (lb - k) ∧
        (la - k = 0 ∨ ¬(0 < lb - k ∧ a.getD (la - k - 1) 0 = b.getD (lb - k - 1) 0)) := by
  intro la
  induction la with
  | zero =>
      intro lb hla hlb hab hdrop
      exact ⟨0, le_rfl, by simp [suffixStrip], by simpa using hdrop, Or.inl rfl⟩
  | succ la ih =>
      intro lb hla hlb hab hdrop
      by_cases hc : 0 < lb ∧ a.getD la 0 = b.getD (lb - 1) 0
      · have hlb1 : lb - 1 ≤ b.length := by omega
        have hla1 : la ≤ a.length := by omega
        have hab1 : la ≤ lb - 1 := by omega
        have hdrop1 : a.drop la = b.drop (lb - 1) := by
          have hlt_a : la < a.length := by omega
          have hlt_b : lb - 1 < b.length := by omega
          rw [List.drop_eq_getElem_cons hlt_a, List.drop_eq_getElem_cons hlt_b]
          have hhd : a[la] = b[lb - 1] := by
            have := hc.2
            rwa [List.getD_eq_getElem a 0 hlt_a, List.getD_eq_getElem b 0 hlt_b] at this
          rw [hhd]
          have : lb - 1 + 1 = lb := by omega
          rw [this, hdrop]
        obtain ⟨k, hk, heq, hdk, hstop⟩ := ih (lb - 1) hla1 hlb1 hab1 hdrop1
        refine ⟨k + 1, by omega, ?_, ?_, ?_⟩
        · have : suffixStrip a b (la + 1) lb = suffixStrip a b la (lb - 1) := by
            simp only [suffixStrip]
            rw [if_pos hc]
          rw [this, heq]
          have h1 : la - k = la + 1 - (k + 1) := by omega
          have h2 : lb - 1 - k = lb - (k + 1) := by omega
          rw [h1, h2]
        · have h1 : la + 1 - (k + 1) = la - k := by omega
          have h2 : lb - (k + 1) = lb - 1 - k := by omega
          rw [h1, h2]
          exact hdk
        · have h1 : la + 1 - (k + 1) = la - k := by omega
          have h2 : lb - (k + 1) = lb - 1 - k := by omega
          rw [h1, h2]
          exact hstop
      · refine ⟨0, by omega, ?_, ?_, Or.inr ?_⟩
        · simp only [suffixStrip]
          rw [if_neg hc]
          simp
        · simpa using hdrop
        · simpa using hc

/-- Invariant analysis of the prefix-elision loop: starting from `offset` with
all earlier positions matching, it returns the first mismatch position (or the
end of the scanned range). -/
theorem prefixGo_spec (a b : List Nat) :
    ∀ fuel offset : Nat, (∀ i, i < offset → a.getD i 0 = b.getD i 0) →
      offset ≤ prefixGo a b fuel offset ∧
      prefixGo a b fuel offset ≤ offset + fuel ∧
      (∀ i, i < prefixGo a b fuel offset → a.getD i 0 = b.getD i 0) ∧
      (prefixGo a b fuel offset < offset + fuel →
        a.getD (prefixGo a b fuel offset) 0 ≠ b.getD (prefixGo a b fuel offset) 0) := by
  intro fuel
  induction fuel with
  | zero =>
      intro offset hpre
      exact ⟨le_rfl, by simp [prefixGo], by simpa [prefixGo] using hpre,
        by simp [prefixGo]⟩
  | succ fuel ih =>
      intro offset hpre
      by_cases hc : a.getD offset 0 = b.getD offset 0
      · have hpre1 : ∀ i, i < offset + 1 → a.getD i 0 = b.getD i 0 := by
          intro i hi
          rcases Nat.lt_or_ge i offset with h | h
          · exact hpre i h
          · have : i = offset := by omega
            rw [this]; exact hc
        obtain ⟨h1, h2, h3, h4⟩ := ih (offset + 1) hpre1
        have hgo : prefixGo a b (fuel + 1) offset = prefixGo a b fuel (offset + 1) := by
          simp only [prefixGo]
          rw [if_pos hc]
        rw [hgo]
        exact ⟨by omega, by omega, h3, fun h => h4 (by omega)⟩
      · have hgo : prefixGo a b (fuel + 1) offset = offset := by
          simp only [prefixGo]
          rw [if_neg hc]
        rw [hgo]
        exact ⟨le_rfl, by omega, hpre, fun _ => hc⟩

/-- Index access into the post-elision region. -/
theorem mid_getD (l : List Nat) (offset n i : Nat) (hi : i < n) (hn : offset + n ≤ l.length) :
    ((l.drop offset).take n).getD i 0 = l.getD (offset + i) 0 := by
  have h1 : i < ((l.drop offset).take n).length := by
    simp [List.length_take, List.length_drop]; omega
  have h2 : offset + i < l.length := by omega
  rw [List.getD_eq_getElem _ 0 h1, List.getD_eq_getElem l 0 h2]
  rw [List.getElem_take, List.getElem_drop]

/-- Length of the post-elision region. -/
theorem mid_length (l : List Nat) (offset n : Nat) (hn : offset + n ≤ l.length) :
    ((l.drop offset).take n).length = n := by
  simp [List.length_take, List.length_drop]; omega

theorem shorterOf_length_le (a0 b0 : List Nat) :
    (shorterOf a0 b0).length ≤ (longerOf a0 b0).length := by
  unfold shorterOf longerOf
  split <;> omega

theorem lev_shorter_longer (a0 b0 : List Nat) :
    lev (shorterOf a0 b0) (longerOf a0 b0) = lev a0 b0 := by
  unfold shorterOf longerOf
  split
  · exact lev_comm b0 a0
  · rfl

/-- Packaged analysis of the swap and elision phase: bounds on the effective
lengths and offset, equality of the middle-section distance with the original
distance, and the first/last character mismatches after full elision. -/
theorem elide_analysis (a0 b0 : List Nat) :
    (elide a0 b0).1 ≤ (elide a0 b0).2.1 ∧
    (elide a0 b0).2.2 + (elide a0 b0).1 ≤ (shorterOf a0 b0).length ∧
    (elide a0 b0).2.2 + (elide a0 b0).2.1 ≤ (longerOf a0 b0).length ∧
    lev (((shorterOf a0 b0).drop (elide a0 b0).2.2).take (elide a0 b0).1)
        (((longerOf a0 b0).drop (elide a0 b0).2.2).take (elide a0 b0).2.1) = lev a0 b0 ∧
    (0 < (elide a0 b0).1 →
      (shorterOf a0 b0).getD (elide a0 b0).2.2 0 ≠ (longerOf a0 b0).getD (elide a0 b0).2.2 0 ∧
      (shorterOf a0 b0).getD ((elide a0 b0).2.2 + (elide a0 b0).1 - 1) 0 ≠
        (longerOf a0 b0).getD ((elide a0 b0).2.2 + (elide a0 b0).2.1 - 1) 0) := by
  set a := shorterOf a0 b0 with ha
  set b := longerOf a0 b0 with hb
  have hab : a.length ≤ b.length := shorterOf_length_le a0 b0
  obtain ⟨k, hk, heq, hdk, hstop⟩ := suffixStrip_spec a b a.length b.length le_rfl le_rfl hab
    (by simp)
  set p := suffixStrip a b a.length b.length with hp
  obtain ⟨ho1, ho2, ho3, ho4⟩ := prefixGo_spec a b p.1 0 (by omega)
  set o := prefixGo a b p.1 0 with ho
  have he : elide a0 b0 = (p.1 - o, p.2 - o, o) := rfl
  rw [he]
  have hp1 : p.1 = a.length - k := by rw [heq]
  have hp2 : p.2 = b.length - k := by rw [heq]
  have hop1 : o ≤ p.1 := by omega
  have hp12 : p.1 ≤ p.2 := by omega
  have hp1a : p.1 ≤ a.length := by omega
  have hp2b : p.2 ≤ b.length := by omega
  refine ⟨by simp; omega, by simp; omega, by simp; omega, ?_, ?_⟩
  · -- distance equality through the elision chain
    have step1 : lev a0 b0 = lev a b := (lev_shorter_longer a0 b0).symm
    have hdk' : a.drop p.1 = b.drop p.2 := by rw [hp1, hp2]; exact hdk
    have step2 : lev a b = lev (a.take p.1) (b.take p.2) := by
      conv_lhs => rw [← List.take_append_drop p.1 a, ← List.take_append_drop p.2 b]
      rw [hdk']
      exact lev_common_right _ _ _
    have htko : a.take o = b.take o := by
      apply List.ext_getElem
      · simp [List.length_take]; omega
      · intro n h1 h2
        have hn : n < o := by simp [List.length_take] at h1; omega
        have hna : n < a.length := by omega
        have hnb : n < b.length := by omega
        rw [List.getElem_take, List.getElem_take]
        have := ho3 n hn
        rwa [List.getD_eq_getElem a 0 hna, List.getD_eq_getElem b 0 hnb] at this
    have hsplit_a : a.take p.1 = a.take o ++ (a.drop o).take (p.1 - o) := by
      have h1 : p.1 = o + (p.1 - o) := by omega
      conv_lhs => rw [h1]
      exact List.take_add a o (p.1 - o)
    have hsplit_b : b.take p.2 = b.take o ++ (b.drop o).take (p.2 - o) := by
      have h1 : p.2 = o + (p.2 - o) := by omega
      conv_lhs => rw [h1]
      exact List.take_add b o (p.2 - o)
    have step3 : lev (a.take p.1) (b.take p.2) =
        lev ((a.drop o).take (p.1 - o)) ((b.drop o).take (p.2 - o)) := by
      rw [hsplit_a, hsplit_b, htko]
      exact lev_common_left _ _ _
    simp only []
    rw [← step3, ← step2]
    exact step1.symm
  · -- first/last mismatch after full elision
    intro hpos
    simp only [] at hpos ⊢
    have hlt : o < p.1 := by omega
    constructor
    · exact ho4 (by omega)
    · have h1 : o + (p.1 - o) - 1 = p.1 - 1 := by omega
      have h2 : o + (p.2 - o) - 1 = p.2 - 1 := by omega
      rw [h1, h2]
      rcases hstop with h | h
      · omega
      · intro hcontra
        apply h
        refine ⟨by omega, ?_⟩
        rw [hp1, hp2] at hcontra
        exact hcontra

/-- The initial rolling vector is column `0` of the DP matrix, encoded. -/
theorem initVector_eq (a b : List Nat) (offset la : Nat) (hA : offset + la ≤ a.length) :
    initVector a offset la = encodePairs (pairsSeg a b offset 0 0 la) := by
  have h1 : initVector a offset la =
      encodePairs ((List.range la).map (fun y => (y + 1, a.getD (offset + y) 0))) := by
    unfold initVector encodePairs
    rw [List.flatMap_map]
  rw [h1]
  congr 1
  rw [List.range_eq_range']
  unfold pairsSeg
  apply List.map_congr_left
  intro t ht
  have htl : t < la := by
    have := List.mem_range'_1.mp ht
    omega
  rw [Mdp_zero_right a b offset (t + 1) (by omega)]

/-- Master theorem for the embedded implementation: the instrumented core
returns the reference distance and a zero skip count, on every pair of
character-code sequences. -/
theorem levenshteinCore_spec (a0 b0 : List Nat) :
    levenshteinCore a0 b0 = (lev a0 b0, 0) := by
  by_cases h0 : a0 = b0
  · subst h0
    simp [levenshteinCore]
  · obtain ⟨hble, hA, hB, hlev, hmm⟩ := elide_analysis a0 b0
    by_cases hdeg : (elide a0 b0).1 = 0 ∨ (elide a0 b0).2.1 < 3
    · -- degenerate exit: the result is the remaining longer effective length
      have hval : lev a0 b0 = (elide a0 b0).2.1 := by
        rw [← hlev]
        have hmidB : (((longerOf a0 b0).drop (elide a0 b0).2.2).take (elide a0 b0).2.1).length
            = (elide a0 b0).2.1 := mid_length _ _ _ hB
        by_cases hz : (elide a0 b0).1 = 0
        · rw [hz]
          simp only [List.take_zero, lev_nil_left]
          exact hmidB
        · have hlt3 : (elide a0 b0).2.1 < 3 := by
            rcases hdeg with h | h
            · exact absurd h hz
            · exact h
          have hpos : 0 < (elide a0 b0).1 := by omega
          obtain ⟨hf, hl⟩ := hmm hpos
          have hmidA : (((shorterOf a0 b0).drop (elide a0 b0).2.2).take (elide a0 b0).1).length
              = (elide a0 b0).1 := mid_length _ _ _ hA
          have hdeg2 := lev_degenerate
            (((shorterOf a0 b0).drop (elide a0 b0).2.2).take (elide a0 b0).1)
            (((longerOf a0 b0).drop (elide a0 b0).2.2).take (elide a0 b0).2.1)
            (by rw [hmidA, hmidB]; exact hble)
            (by rw [hmidA]; exact hpos)
            (by rw [hmidB]; exact hlt3)
            (by rw [mid_getD _ _ _ 0 (by omega) hA, mid_getD _ _ _ 0 (by omega) hB]
                simpa using hf)
            (by rw [hmidA, hmidB]
                have h1 : (elide a0 b0).1 - 1 < (elide a0 b0).1 := by omega
                have h2 : (elide a0 b0).2.1 - 1 < (elide a0 b0).2.1 := by omega
                rw [mid_getD _ _ _ _ h1 hA, mid_getD _ _ _ _ h2 hB]
                have e1 : (elide a0 b0).2.2 + ((elide a0 b0).1 - 1) =
                    (elide a0 b0).2.2 + (elide a0 b0).1 - 1 := by omega
                have e2 : (elide a0 b0).2.2 + ((elide a0 b0).2.1 - 1) =
                    (elide a0 b0).2.2 + (elide a0 b0).2.1 - 1 := by omega
                rw [e1, e2]
                exact hl)
          rw [hdeg2, hmidB]
      have hret : levenshteinCore a0 b0 = ((elide a0 b0).2.1, 0) := by
        simp only [levenshteinCore, if_neg h0]
        rw [if_pos hdeg]
      rw [hret, hval]
    · -- main dynamic program
      have hla1 : 1 ≤ (elide a0 b0).1 := by omega
      have hlb3 : 3 ≤ (elide a0 b0).2.1 := by omega
      have hv0 := initVector_eq (shorterOf a0 b0) (longerOf a0 b0)
        (elide a0 b0).2.2 (elide a0 b0).1 hA
      have hlen : (initVector (shorterOf a0 b0) (elide a0 b0).2.2 (elide a0 b0).1).length - 1
          = 2 * (elide a0 b0).1 - 1 := by
        rw [hv0]; simp
      obtain ⟨X, DD1, heq1, hX1, hX2, hD1⟩ := mainLoop_spec (shorterOf a0 b0) (longerOf a0 b0)
        (elide a0 b0).2.2 (elide a0 b0).1 (elide a0 b0).2.1 hA hB hla1
        (elide a0 b0).2.1 0 0 0 (by omega) (by omega)
      obtain ⟨DD2, heq2, hD2⟩ := cleanupLoop_spec (shorterOf a0 b0) (longerOf a0 b0)
        (elide a0 b0).2.2 (elide a0 b0).1 (elide a0 b0).2.1 hA hB hla1
        (elide a0 b0).2.1 X DD1 0 (by omega) hX2
      have hDD2 : DD2 = Mdp (shorterOf a0 b0) (longerOf a0 b0) (elide a0 b0).2.2
          (elide a0 b0).1 (elide a0 b0).2.1 := by
        rcases hD2 with h | ⟨hXlb, hDD⟩
        · exact h
        · rcases hD1 with h | ⟨hX0, hD0⟩
          · rw [hDD, h, hXlb]
          · omega
      have hfin : Mdp (shorterOf a0 b0) (longerOf a0 b0) (elide a0 b0).2.2
          (elide a0 b0).1 (elide a0 b0).2.1 = lev a0 b0 := by
        unfold Mdp
        rw [lev_reverse]
        exact hlev
      simp only [levenshteinCore, if_neg h0]
      rw [if_neg hdeg, hlen, hv0]
      simp only [heq1]
      simp only [heq2]
      rw [hDD2, hfin]


/-! ## The string-level view and the confusables normalizer
(`src/confusables.ts`, `src/index.ts`) -/

theorem mapGet_set_eq (k v : List Nat) : ∀ m, mapGet (mapSet m k v) k = some v := by
  intro m
  induction m with
  | nil => simp [mapSet, mapGet, List.find?]
  | cons kv rest ih =>
      by_cases h : kv.1 = k
      · simp [mapSet, h, mapGet, List.find?]
      · simp only [mapSet, if_neg h]
        simp only [mapGet, List.find?] at ih ⊢
        have hb : (kv.1 == k) = false := by simp [h]
        rw [hb]
        simpa using ih

theorem mapGet_set_ne (k v k' : List Nat) (hne : k' ≠ k) :
    ∀ m, mapGet (mapSet m k v) k' = mapGet m k' := by
  intro m
  induction m with
  | nil =>
      have hb : (k == k') = false := by
        simp
        exact fun hh => hne hh.symm
      simp [mapSet, mapGet, List.find?, hb]
  | cons kv rest ih =>
      by_cases h : kv.1 = k
      · have h1 : (k == k') = false := by
          simp
          exact fun hh => hne hh.symm
        have h2 : (kv.1 == k') = false := by
          simp [h]
          exact fun hh => hne hh.symm
        simp only [mapSet, if_pos h, mapGet, List.find?, h1, h2]
      · simp only [mapSet, if_neg h]
        simp only [mapGet, List.find?] at ih ⊢
        cases hb : (kv.1 == k') with
        | true => simp
        | false => simpa using ih

/-- A successful lookup returns the value of an entry of the map. -/
theorem mapGet_mem {m : List (List Nat × List Nat)} {k v : List Nat}
    (h : mapGet m k = some v) : ∃ kv ∈ m, kv.2 = v := by
  unfold mapGet at h
  cases hf : m.find? (fun kv => kv.1 == k) with
  | none => rw [hf] at h; simp at h
  | some kv =>
      rw [hf] at h
      simp at h
      exact ⟨kv, List.mem_of_find?_eq_some hf, h⟩

/-- The inner confusables loop never touches a key none of its code points
spell. -/
theorem foldSet_get_ne (v c : List Nat) :
    ∀ (cs : List Nat) (m : List (List Nat × List Nat)), (∀ ch ∈ cs, [ch] ≠ c) →
      mapGet (cs.foldl (fun m ch => mapSet m [ch] v) m) c = mapGet m c := by
  intro cs
  induction cs with
  | nil => intro m _; rfl
  | cons ch cs ih =>
      intro m hno
      have h1 : [ch] ≠ c := hno ch (by simp)
      have hrest : ∀ x ∈ cs, [x] ≠ c := fun x hx => hno x (by simp [hx])
      simp only [List.foldl_cons]
      rw [ih _ hrest, mapGet_set_ne _ _ _ (fun hh => h1 hh.symm)]

/-- Effect of one `decodeCompact` iteration on a key that is never spelled by
the pair's confusables: the reflexive rule installs the self-mapping when the
key is the pair's canonical and absent, and never overrides anything. -/
theorem decodeStep_preserves (m : List (List Nat × List Nat)) (p : List Nat × List Nat)
    (c : List Nat) (hno : ∀ ch ∈ p.2, [ch] ≠ c)
    (hinv : mapGet m c = none ∨ mapGet m c = some c) :
    (mapGet (decodeStep m p) c = none ∨ mapGet (decodeStep m p) c = some c) ∧
    (p.1 = c → mapGet (decodeStep m p) c = some c) ∧
    (mapGet m c = some c → mapGet (decodeStep m p) c = some c) := by
  unfold decodeStep
  have hm1 : mapGet (p.2.foldl (fun m ch => mapSet m [ch] p.1) m) c = mapGet m c :=
    foldSet_get_ne p.1 c p.2 m hno
  set m1 := p.2.foldl (fun m ch => mapSet m [ch] p.1) m with hm1def
  by_cases hhas : mapHas m1 p.1
  · simp only [if_pos hhas]
    refine ⟨by rw [hm1]; exact hinv, ?_, by rw [hm1]; exact fun h => h⟩
    intro hpc
    rcases hinv with h | h
    · exfalso
      rw [hpc] at hhas
      unfold mapHas at hhas
      rw [hm1, h] at hhas
      simp at hhas
    · rw [hm1]; exact h
  · simp only [if_neg hhas]
    by_cases hpc : p.1 = c
    · rw [hpc]
      have hg : mapGet (mapSet m1 c c) c = some c := mapGet_set_eq c c m1
      exact ⟨Or.inr hg, fun _ => hg, fun _ => hg⟩
    · have hg : mapGet (mapSet m1 p.1 p.1) c = mapGet m1 c :=
        mapGet_set_ne p.1 p.1 c (fun hh => hpc hh.symm) m1
      rw [hg, hm1]
      exact ⟨hinv, fun h => absurd h hpc, fun h => h⟩

/-- Folding `decodeCompact` over pairs whose confusables never spell `c`:
once `c` is the canonical of some pair (or already self-mapped), the final
map sends `c` to itself, regardless of duplicate canonicals or order. -/
theorem decodeFold_get (c : List Nat) :
    ∀ (compact : List (List Nat × List Nat)) (m : List (List Nat × List Nat)),
      (∀ p ∈ compact, ∀ ch ∈ p.2, [ch] ≠ c) →
      (mapGet m c = none ∨ mapGet m c = some c) →
      (mapGet (compact.foldl decodeStep m) c = none ∨
        mapGet (compact.foldl decodeStep m) c = some c) ∧
      (((∃ p ∈ compact, p.1 = c) ∨ mapGet m c = some c) →
        mapGet (compact.foldl decodeStep m) c = some c) := by
  intro compact
  induction compact with
  | nil =>
      intro m hno hinv
      refine ⟨hinv, ?_⟩
      rintro (⟨p, hp, _⟩ | h)
      · simp at hp
      · exact h
  | cons p rest ih =>
      intro m hno hinv
      have hnop : ∀ ch ∈ p.2, [ch] ≠ c := hno p (by simp)
      have hnorest : ∀ q ∈ rest, ∀ ch ∈ q.2, [ch] ≠ c := fun q hq => hno q (by simp [hq])
      obtain ⟨hA, hB, hC⟩ := decodeStep_preserves m p c hnop hinv
      obtain ⟨ihA, ihB⟩ := ih (decodeStep m p) hnorest hA
      simp only [List.foldl_cons]
      refine ⟨ihA, ?_⟩
      rintro (⟨q, hq, hqc⟩ | h)
      · rcases List.mem_cons.mp hq with rfl | hq'
        · exact ihB (Or.inr (hB hqc))
        · exact ihB (Or.inl ⟨q, hq', hqc⟩)
      · exact ihB (Or.inr (hC h))

/-! ### Normalizer lemmas -/

@[simp] theorem normWithMap_nil (m : List (List Nat × List Nat)) : normWithMap m [] = [] := rfl

theorem normWithMap_cons (m : List (List Nat × List Nat)) (c : Nat) (s : List Nat) :
    normWithMap m (c :: s) = (mapGet m [c]).getD [c] ++ normWithMap m s := by
  simp [normWithMap]

theorem normWithMap_append (m : List (List Nat × List Nat)) (s t : List Nat) :
    normWithMap m (s ++ t) = normWithMap m s ++ normWithMap m t := by
  simp [normWithMap]

theorem normWithMap_single (m : List (List Nat × List Nat)) (c : Nat) :
    normWithMap m [c] = (mapGet m [c]).getD [c] := by
  simp [normWithMap]

theorem normWithMap_flatten_map (m : List (List Nat × List Nat)) (s : List Nat) :
    normWithMap m s = (s.map (fun c => normWithMap m [c])).flatten := by
  induction s with
  | nil => rfl
  | cons c s ih =>
      rw [normWithMap_cons, ih]
      simp [normWithMap_single]

/-- Idempotence of the normalizer against any map whose stored canonical
strings are themselves fixed points (the invariant the specification states
for the confusables table). -/
theorem normWithMap_idem (m : List (List Nat × List Nat))
    (h : ∀ kv ∈ m, normWithMap m kv.2 = kv.2) (s : List Nat) :
    normWithMap m (normWithMap m s) = normWithMap m s := by
  induction s with
  | nil => rfl
  | cons c s ih =>
      rw [normWithMap_cons, normWithMap_append, ih]
      congr 1
      cases hg : mapGet m [c] with
      | none => simp [normWithMap_single, hg]
      | some v =>
          obtain ⟨kv, hkv, hv⟩ := mapGet_mem hg
          have hfix := h kv hkv
          rw [hv] at hfix
          simpa [hg] using hfix

/-- When every stored canonical string is a single code point, the
normalizer preserves the code-point count. -/
theorem normWithMap_length (m : List (List Nat × List Nat))
    (h : ∀ kv ∈ m, kv.2.length = 1) (s : List Nat) :
    (normWithMap m s).length = s.length := by
  induction s with
  | nil => rfl
  | cons c s ih =>
      rw [normWithMap_cons]
      simp only [List.length_append, ih, List.length_cons]
      cases hg : mapGet m [c] with
      | none => simp [hg]; omega
      | some v =>
          obtain ⟨kv, hkv, hv⟩ := mapGet_mem hg
          have hv1 := h kv hkv
          rw [hv] at hv1
          simp [hg, hv1]
          omega

/-! ## Shared bridge lemmas -/

theorem levenshteinDistance_eq_lev (a b : List Nat) :
    levenshteinDistance a b = lev a b := by
  show (levenshteinCore a b).1 = lev a b
  rw [levenshteinCore_spec]

theorem initVector_encode (a : List Nat) (offset la : Nat) :
    initVector a offset la =
      encodePairs ((List.range la).map (fun y => (y + 1, a.getD (offset + y) 0))) := by
  unfold initVector encodePairs
  rw [List.flatMap_map]

theorem initVector_length (a : List Nat) (offset la : Nat) :
    (initVector a offset la).length = 2 * la := by
  rw [initVector_encode, encodePairs_length, List.length_map, List.length_range]

/-- On BMP-only code points, UTF-16 encoding is the identity. -/
theorem utf16Encode_bmp (s : List Nat) (hs : ∀ c ∈ s, c < 65536) :
    utf16Encode s = s := by
  induction s with
  | nil => rfl
  | cons c s ih =>
      have hc : c < 65536 := hs c (by simp)
      have hrest : ∀ x ∈ s, x < 65536 := fun x hx => hs x (by simp [hx])
      have hstep : utf16Encode (c :: s) =
          (if c < 65536 then [c]
           else [55296 + (c - 65536) / 1024, 56320 + (c - 65536) % 1024]) ++
            utf16Encode s := by
        simp [utf16Encode]
      rw [hstep, if_pos hc, ih hrest]
      rfl

/-! ## Claim theorems -/

/-- C1: for every pair of finite character-code sequences, the optimized
rolling-vector, 4-wide-unrolled `levenshteinDistance` returns the classic
Levenshtein reference value: the minimum number of single-character
insertions, deletions, or substitutions transforming one into the other. -/
theorem C1_impl_eq_reference (a b : List Nat) :
    levenshteinDistance a b = lev a b ∧
    IsLeast {n | Aligns a b n} (levenshteinDistance a b) := by
  have h := levenshteinDistance_eq_lev a b
  exact ⟨h, by rw [h]; exact lev_isLeast a b⟩

/-- C2 counterexample: the engine compares UTF-16 code units, not code
points: the single astral code point U+1D11E against the single BMP code
point `"A"` has distance 2, not 1 as the claim demands. -/
theorem C2_counterexample :
    levenshteinDistanceCP [119070] [65] = 2 ∧
    ¬ levenshteinDistanceCP [119070] [65] = 1 := by
  exact ⟨by decide, by decide⟩

/-- C2 amended: the unit of comparison is the UTF-16 code unit — the
distance of two JS strings is the reference distance of their code-unit
sequences — and it coincides with the code-point distance exactly when all
code points lie in the basic multilingual plane (an astral character counts
as two units, `C2_counterexample`). -/
theorem C2_utf16_unit_of_comparison (a b : List Nat) :
    levenshteinDistanceCP a b = lev (utf16Encode a) (utf16Encode b) ∧
    ((∀ c ∈ a, c < 65536) → (∀ c ∈ b, c < 65536) →
      levenshteinDistanceCP a b = lev a b) := by
  refine ⟨levenshteinDistance_eq_lev _ _, fun ha hb => ?_⟩
  unfold levenshteinDistanceCP
  rw [utf16Encode_bmp a ha, utf16Encode_bmp b hb]
  exact levenshteinDistance_eq_lev a b

theorem C2_utf16_unit_of_comparison_witness :
    (∀ c ∈ ([104, 105] : List Nat), c < 65536) ∧
    levenshteinDistanceCP [104, 105] [104] = lev [104, 105] [104] :=
  ⟨by decide, (C2_utf16_unit_of_comparison [104, 105] [104]).2 (by decide) (by decide)⟩

/-- C3 counterexample: with the mapping `'m' → "rn"` pinned by the test
suite, one input code point yields two output code points, so the output's
code-point count differs from the input's. -/
theorem C3_counterexample :
    normalizeConfusables confusablesTestData [109] = [114, 110] ∧
    ¬ (normalizeConfusables confusablesTestData [109]).length
        = ([109] : List Nat).length := by
  exact ⟨by decide, by decide⟩

/-- C3 amended: each input code point is replaced independently by its mapped
canonical string — the transform never merges characters — but a canonical
string may hold several code points, so the code-point count is preserved
exactly when every stored canonical string is a single code point. -/
theorem C3_per_code_point (m : List (List Nat × List Nat)) (s : List Nat)
    (h : ∀ kv ∈ m, kv.2.length = 1) :
    normWithMap m s = (s.map (fun c => normWithMap m [c])).flatten ∧
    (normWithMap m s).length = s.length :=
  ⟨normWithMap_flatten_map m s, normWithMap_length m h s⟩

theorem C3_per_code_point_witness :
    (∀ kv ∈ ([([48], [79])] : List (List Nat × List Nat)), kv.2.length = 1) ∧
    (normWithMap [([48], [79])] [48, 65]).length = ([48, 65] : List Nat).length :=
  ⟨by decide, (C3_per_code_point [([48], [79])] [48, 65] (by decide)).2⟩

/-- C4 counterexample: after processing `[["O","0"]]` the map sends `"O"` to
itself, but the subsequently processed pair `[["X","O"]]` lists `"O"` among
its confusables and overrides the earlier self-mapping, so the final map
sends `"O"` to `"X"`. -/
theorem C4_counterexample :
    mapGet (decodeCompact [([79], [48])]) [79] = some [79] ∧
    mapGet (decodeCompact [([79], [48]), ([88], [79])]) [79] = some [88] ∧
    ¬ mapGet (decodeCompact [([79], [48]), ([88], [79])]) [79] = some [79] := by
  exact ⟨by decide, by decide, by decide⟩

/-- C4 amended: the reflexive rule never overrides anything (it inserts only
when the key is absent), so a canonical value that no pair lists among its
confusables maps to itself in the final map as soon as any pair declares it
canonical, independent of the encounter order of duplicate canonicals across
pairs; only a later pair listing it as a confusable can change it. -/
theorem C4_self_mapping_stable (compact : List (List Nat × List Nat)) (c : List Nat)
    (hno : ∀ p ∈ compact, ∀ ch ∈ p.2, [ch] ≠ c)
    (hcan : ∃ p ∈ compact, p.1 = c) :
    mapGet (decodeCompact compact) c = some c := by
  have h := decodeFold_get c compact [] hno (Or.inl rfl)
  exact h.2 (Or.inl hcan)

theorem C4_self_mapping_stable_witness :
    (∀ p ∈ ([([79], [48]), ([79], [49])] : List (List Nat × List Nat)),
      ∀ ch ∈ p.2, [ch] ≠ [79]) ∧
    (∃ p ∈ ([([79], [48]), ([79], [49])] : List (List Nat × List Nat)), p.1 = [79]) ∧
    mapGet (decodeCompact [([79], [48]), ([79], [49])]) [79] = some [79] :=
  ⟨by decide, by decide,
    C4_self_mapping_stable [([79], [48]), ([79], [49])] [79] (by decide) (by decide)⟩

/-- C5: normalization is idempotent for every confusables data set whose
decoded map stores only canonical strings that are fixed points of the
normalizer — the invariant the specification states for the table, satisfied
by the test-pinned fragment (see the witness). -/
theorem C5_idempotent (compact : List (List Nat × List Nat))
    (h : ∀ kv ∈ decodeCompact compact, normalizeConfusables compact kv.2 = kv.2)
    (s : List Nat) :
    normalizeConfusables compact (normalizeConfusables compact s) =
      normalizeConfusables compact s :=
  normWithMap_idem (decodeCompact compact) h s

theorem C5_idempotent_witness :
    (∀ kv ∈ decodeCompact confusablesTestData,
      normalizeConfusables confusablesTestData kv.2 = kv.2) ∧
    normalizeConfusables confusablesTestData
        (normalizeConfusables confusablesTestData [109, 48]) =
      normalizeConfusables confusablesTestData [109, 48] :=
  ⟨by decide, C5_idempotent confusablesTestData (by decide) [109, 48]⟩

/-- C6: when, after the identity short-circuit, the swap, and common-suffix
then common-prefix elision, the remaining shorter effective length is 0 or
the remaining longer effective length is below 3, the function returns
exactly the remaining longer effective length, and that value is the true
edit distance of the two original inputs. -/
theorem C6_degenerate_exit (a0 b0 : List Nat) (hne : a0 ≠ b0)
    (hdeg : (elide a0 b0).1 = 0 ∨ (elide a0 b0).2.1 < 3) :
    levenshteinDistance a0 b0 = (elide a0 b0).2.1 ∧
    (elide a0 b0).2.1 = lev a0 b0 := by
  have hret : levenshteinDistance a0 b0 = (elide a0 b0).2.1 := by
    simp only [levenshteinDistance, levenshteinCore, if_neg hne, if_pos hdeg]
  exact ⟨hret, hret.symm.trans (levenshteinDistance_eq_lev a0 b0)⟩

theorem C6_degenerate_exit_witness :
    (([97, 98] : List Nat) ≠ [99, 100]) ∧
    ((elide [97, 98] [99, 100]).1 = 0 ∨ (elide [97, 98] [99, 100]).2.1 < 3) ∧
    (levenshteinDistance [97, 98] [99, 100] = (elide [97, 98] [99, 100]).2.1 ∧
      (elide [97, 98] [99, 100]).2.1 = lev [97, 98] [99, 100]) :=
  ⟨by decide, by decide, C6_degenerate_exit [97, 98] [99, 100] (by decide) (by decide)⟩

/-- C7: the distance is symmetric in its arguments, and consequently so is
the composed confusable distance, for every confusables data set. -/
theorem C7_symmetry (a b : List Nat) :
    levenshteinDistance a b = levenshteinDistance b a ∧
    (∀ compact : List (List Nat × List Nat),
      getConfusableDistance compact a b = getConfusableDistance compact b a) := by
  have hsym : ∀ u v : List Nat, levenshteinDistance u v = levenshteinDistance v u := by
    intro u v
    rw [levenshteinDistance_eq_lev, levenshteinDistance_eq_lev]
    exact lev_comm u v
  exact ⟨hsym a b, fun compact => hsym _ _⟩

/-- C8: the distance is bounded below by the length difference and above by
the longer length of the two character-code sequences, and against an empty
sequence it is the other sequence's length. -/
theorem C8_length_bounds (a b : List Nat) :
    levenshteinDistance a b ≤ max a.length b.length ∧
    a.length - b.length ≤ levenshteinDistance a b ∧
    b.length - a.length ≤ levenshteinDistance a b ∧
    levenshteinDistance [] b = b.length ∧
    levenshteinDistance a [] = a.length := by
  simp only [levenshteinDistance_eq_lev]
  exact ⟨lev_le_max a b, (lev_length_lower a b).1, (lev_length_lower a b).2,
    by simp, by simp⟩

/-- C9: for every input that reaches the DP loops, the vector holds exactly
`2 * la` entries, both probed slots are defined at every even index below
`len`, and no inner-loop iteration is ever skipped by the `undefined`
guards (the instrumented skip counter stays 0). -/
theorem C9_guard_unreachable (a0 b0 : List Nat) (hne : a0 ≠ b0)
    (hdp : ¬((elide a0 b0).1 = 0 ∨ (elide a0 b0).2.1 < 3)) :
    (initVector (shorterOf a0 b0) (elide a0 b0).2.2 (elide a0 b0).1).length
        = 2 * (elide a0 b0).1 ∧
    (∀ y : Nat, y % 2 = 0 →
      y < (initVector (shorterOf a0 b0) (elide a0 b0).2.2 (elide a0 b0).1).length - 1 →
      ((initVector (shorterOf a0 b0) (elide a0 b0).2.2 (elide a0 b0).1)[y]?.isSome = true ∧
        (initVector (shorterOf a0 b0) (elide a0 b0).2.2 (elide a0 b0).1)[y + 1]?.isSome
          = true)) ∧
    levenshteinSkips a0 b0 = 0 := by
  have hlen : (initVector (shorterOf a0 b0) (elide a0 b0).2.2 (elide a0 b0).1).length
      = 2 * (elide a0 b0).1 := initVector_length _ _ _
  refine ⟨hlen, ?_, ?_⟩
  · intro y hy2 hylt
    rw [hlen] at hylt
    have hy : y < (initVector (shorterOf a0 b0) (elide a0 b0).2.2 (elide a0 b0).1).length := by
      rw [hlen]; omega
    have hy1 : y + 1 <
        (initVector (shorterOf a0 b0) (elide a0 b0).2.2 (elide a0 b0).1).length := by
      rw [hlen]; omega
    constructor
    · simp [List.getElem?_eq_getElem hy]
    · simp [List.getElem?_eq_getElem hy1]
  · show (levenshteinCore a0 b0).2 = 0
    rw [levenshteinCore_spec]

theorem C9_guard_unreachable_witness :
    (([1, 2, 3] : List Nat) ≠ [4, 5, 6]) ∧
    ¬((elide [1, 2, 3] [4, 5, 6]).1 = 0 ∨ (elide [1, 2, 3] [4, 5, 6]).2.1 < 3) ∧
    ((initVector (shorterOf [1, 2, 3] [4, 5, 6]) (elide [1, 2, 3] [4, 5, 6]).2.2
        (elide [1, 2, 3] [4, 5, 6]).1).length = 2 * (elide [1, 2, 3] [4, 5, 6]).1 ∧
      (∀ y : Nat, y % 2 = 0 →
        y < (initVector (shorterOf [1, 2, 3] [4, 5, 6]) (elide [1, 2, 3] [4, 5, 6]).2.2
          (elide [1, 2, 3] [4, 5, 6]).1).length - 1 →
        ((initVector (shorterOf [1, 2, 3] [4, 5, 6]) (elide [1, 2, 3] [4, 5, 6]).2.2
            (elide [1, 2, 3] [4, 5, 6]).1)[y]?.isSome = true ∧
          (initVector (shorterOf [1, 2, 3] [4, 5, 6]) (elide [1, 2, 3] [4, 5, 6]).2.2
            (elide [1, 2, 3] [4, 5, 6]).1)[y + 1]?.isSome = true)) ∧
      levenshteinSkips [1, 2, 3] [4, 5, 6] = 0) :=
  ⟨by decide, by decide, C9_guard_unreachable [1, 2, 3] [4, 5, 6] (by decide) (by decide)⟩

/-- C10: the normalizer is a code-point-wise homomorphism with respect to
concatenation, maps the empty string to the empty string, and each output
chunk depends only on the single input code point it replaces. -/
theorem C10_concat_homomorphism (compact : List (List Nat × List Nat)) (s t : List Nat) :
    normalizeConfusables compact (s ++ t) =
      normalizeConfusables compact s ++ normalizeConfusables compact t ∧
    normalizeConfusables compact [] = [] ∧
    normalizeConfusables compact s =
      (s.map (fun c => normalizeConfusables compact [c])).flatten := by
  unfold normalizeConfusables
  exact ⟨normWithMap_append _ s t, rfl, normWithMap_flatten_map _ s⟩

end StringPea
